import Mathlib

/-!
Shallow embedding of the solution-representation utilities of VeRyPy
(`verypy/util.py`) and proofs about them.

Conventions of the embedding:
* node ids are `Nat`, the depot is `0`;
* a distance table for `objf` is a function `Nat → Nat → Int`
  (exact integer costs; no floating point is modelled);
* a distance table for `produce_nn_list` is a `List (List Int)` of rows,
  mirroring the row indexing `D[i,:]` of the source;
* Python's stable `sorted(..., key=itemgetter(1))` is embedded as
  `List.insertionSort` ordered by the second component, which is a stable
  sort, matching CPython's stable sort contract;
* `itertools.groupby(sol, lambda z: z == 0)` is embedded as `groupRuns`,
  which splits a list into maximal runs of elements whose key `(· == 0)`
  agrees;
* fallible operations (`del` on a missing key, assembling an empty route
  list) return `Option`, `none` standing for the exception / `None`.
-/

namespace VeRyPy

/-- Embeds `produce_nn_list(D)`: for each row of `D`, the `(index, value)`
pairs of the row sorted ascending by value (`sorted(enumerate(D[i,:]),
key=itemgetter(1))`).  Note the source performs no validation of `D`. -/
def produce_nn_list (D : List (List Int)) : List (List (Nat × Int)) :=
  D.map (fun row => List.insertionSort (fun p q => p.2 ≤ q.2) row.enum)

/-- Embeds `objf(sol, D)`: `sum(D[sol[i-1], sol[i]] for i in range(1, len(sol)))`,
i.e. the sum of `D` over the adjacent pairs of `sol`. -/
def objf (sol : List Nat) (D : Nat → Nat → Int) : Int :=
  match sol with
  | a :: b :: rest => D a b + objf (b :: rest) D
  | _ => 0

/-- Embeds `is_better_sol(best_f, best_K, sol_f, sol_K, minimize_K)`.
`none` stands for Python's `None`. -/
def is_better_sol (best_f best_K sol_f sol_K : Option Int)
    (minimize_K : Bool) : Bool :=
  match sol_f, sol_K with
  | none, _ | _, none => false
  | some sf, some sK =>
    match best_f, best_K with
    | none, _ | _, none => true
    | some bf, some bK =>
      if minimize_K then decide (sK < bK) || (decide (sK = bK) && decide (sf < bf))
      else decide (sf < bf)

/-- The grouping key used by `sol2routes`: `lambda z: z == 0`. -/
def zkey (a : Nat) : Bool := a == 0

/-- Embeds `itertools.groupby(sol, lambda z: z == 0)`: the maximal runs of
consecutive elements whose key `zkey` agrees, in order. -/
def groupRuns : List Nat → List (List Nat)
  | [] => []
  | a :: rest =>
    match groupRuns rest with
    | [] => [[a]]
    | [] :: gs => [a] :: gs
    | (b :: g) :: gs =>
      if zkey a == zkey b then (a :: b :: g) :: gs else [a] :: (b :: g) :: gs

/-- Embeds `sol2routes(sol)`: empty for `len(sol) <= 2`, else every maximal
run of non-depot nodes wrapped as `[0] + run + [0]` (the groups whose key
is true, i.e. the runs of zeros, are dropped). -/
def sol2routes (sol : List Nat) : List (List Nat) :=
  if sol.length ≤ 2 then []
  else (groupRuns sol).filterMap
    (fun r => if zkey (r.headD 0) then none else some (0 :: (r ++ [0])))

/-- Embeds `sol2edgeset(sol, symmetric)`: for each adjacent pair of `sol`,
`(sol[i], sol[j])` is inserted when `symmetric or sol[i] < sol[j]`, else
`(sol[j], sol[i])` — exactly the branch structure of the source. -/
def sol2edgeset (sol : List Nat) (symmetric : Bool) : Finset (Nat × Nat) :=
  (List.range (sol.length - 1)).foldl
    (fun edges i =>
      let a := sol.getD i 0
      let b := sol.getD (i + 1) 0
      if symmetric ∨ a < b then insert (a, b) edges else insert (b, a) edges)
    ∅

/-- The loop body of `routes2sol`: skip a falsy (empty) route; drop the
route's leading depot if present; append; close with a depot if the running
solution does not already end in one. -/
def r2sStep (sol : List Nat) (r : List Nat) : List Nat :=
  if r = [] then sol
  else
    let sol1 := if r.headD 0 == 0 then sol ++ r.tail else sol ++ r
    if sol1.getLastD 0 == 0 then sol1 else sol1 ++ [0]

/-- Embeds `routes2sol(routes)`: `none` for a falsy (empty) route list
(the source returns `None`), else the fold of `r2sStep` from `[0]`. -/
def routes2sol (routes : List (List Nat)) : Option (List Nat) :=
  if routes = [] then none
  else some (routes.foldl r2sStep [0])

/-- Embeds the state of an `OrderedDictSet`: `ods` is the key list of the
insertion-ordered dict (all stored values are `None`), `keylist` the lazily
built positional cache (`None` ↦ `none`). -/
structure OrderedDictSet where
  ods : List Nat
  keylist : Option (List Nat)
deriving DecidableEq, Repr

/-- Python-3.7 dict key insertion: an already-present key keeps its
position, a new key is appended at the end. -/
def dictInsert (l : List Nat) (a : Nat) : List Nat :=
  if a ∈ l then l else l ++ [a]

namespace OrderedDictSet

/-- Embeds `OrderedDictSet(collection)`: `dict.fromkeys(collection, None)`
keeps the first occurrence of each key, in encounter order; the positional
cache starts unbuilt. -/
def ofCollection (collection : List Nat) : OrderedDictSet :=
  ⟨collection.foldl dictInsert [], none⟩

/-- Embeds `add(element)`: `self.ods[element] = None`, and the cache is
extended only when it is truthy (built and non-empty). -/
def add (s : OrderedDictSet) (e : Nat) : OrderedDictSet :=
  { ods := dictInsert s.ods e
    keylist :=
      match s.keylist with
      | some kl => if kl = [] then some [] else some (kl ++ [e])
      | none => none }

/-- Embeds `remove(element)`: `del self.ods[element]` raises `KeyError`
(`none`) when absent; on success the cache is invalidated. -/
def remove (s : OrderedDictSet) (e : Nat) : Option OrderedDictSet :=
  if e ∈ s.ods then some ⟨s.ods.erase e, none⟩ else none

/-- Embeds `len(self)`: the number of keys of the dict. -/
def size (s : OrderedDictSet) : Nat := s.ods.length

end OrderedDictSet

/-- One mutating operation on an `OrderedDictSet` (the operations claim C5
quantifies over). -/
inductive Op where
  | add (e : Nat)
  | remove (e : Nat)
deriving DecidableEq, Repr

/-- Apply one operation; `none` when the operation raises (`remove` of an
absent element). -/
def applyOp (s : OrderedDictSet) : Op → Option OrderedDictSet
  | .add e => some (s.add e)
  | .remove e => s.remove e

/-- Apply a sequence of operations left to right, stopping at the first
raised exception. -/
def applyOps (s : OrderedDictSet) : List Op → Option OrderedDictSet
  | [] => some s
  | op :: ops =>
    match applyOp s op with
    | some s' => applyOps s' ops
    | none => none

/-- Specification-side effect of one operation on an abstract ordered set
(a duplicate-free list): `add` keeps a present element in place and appends
an absent one, `remove` erases. -/
def specStep (l : List Nat) : Op → List Nat
  | .add e => dictInsert l e
  | .remove e => l.erase e

/-- Specification-side ordered-set contents after a history of operations,
starting from empty: the still-present elements ordered by most recent
insertion. -/
def specOrder (h : List Op) : List Nat := h.foldl specStep []

/-- Whether, after history `h` started from presence flag `b`, element `a`
is present: the last `add`/`remove` of `a` in `h` decides, else `b`. -/
def presentFrom (b : Bool) : List Op → Nat → Bool
  | [], _ => b
  | .add e :: t, a => presentFrom (if e = a then true else b) t a
  | .remove e :: t, a => presentFrom (if e = a then false else b) t a

/-- Element `a` is present after history `h` (starting from the empty set). -/
def present (h : List Op) (a : Nat) : Bool := presentFrom false h a

/-- The elements added (with multiplicity, in order) by a history. -/
def addsOf (h : List Op) : List Nat :=
  h.filterMap (fun op => match op with | .add e => some e | .remove _ => none)

/-- The elements removed (with multiplicity, in order) by a history. -/
def removesOf (h : List Op) : List Nat :=
  h.filterMap (fun op => match op with | .remove e => some e | .add _ => none)

/-- The still-present elements ordered by their FIRST insertion ever —
the order claim C5 asserts for iteration. -/
def firstInsertionOrder (h : List Op) : List Nat :=
  ((addsOf h).foldl dictInsert []).filter (fun a => present h a)

/-- The number of distinct elements ever added by a history. -/
def distinctAdded (h : List Op) : Nat := ((addsOf h).foldl dictInsert []).length

/-- The number of distinct elements ever removed by a history. -/
def distinctRemoved (h : List Op) : Nat :=
  ((removesOf h).foldl dictInsert []).length

end VeRyPy

namespace VeRyPy

instance : IsTotal (Nat × Int) (fun p q => p.2 ≤ q.2) :=
  ⟨fun a b => le_total a.2 b.2⟩

instance : IsTrans (Nat × Int) (fun p q => p.2 ≤ q.2) :=
  ⟨fun _ _ _ hab hbc => le_trans hab hbc⟩

/-- C1: at the failing input `sol = [0,3,0]`, `sol2edgeset` with
`symmetric=True` stores BOTH `(0,3)` and `(3,0)` (the pair `(3,0)` with
`3 > 0` is kept as encountered, not canonicalized to `(0,3)`), while with
`symmetric=False` it canonicalizes the traversed pair `(3,0)` to `(0,3)`
instead of preserving the encountered direction.  This is the behaviour of
the source condition `if symmetric or sol[i] < sol[j]`, which inverts the
documented contract. -/
theorem sol2edgeset_condition_inverted :
    sol2edgeset [0, 3, 0] true = {(0, 3), (3, 0)}
    ∧ sol2edgeset [0, 3, 0] false = {(0, 3)} := by
  decide

/-- C2: at the failing input `[0,3,3,0]`, `sol2routes` returns
`[[0,3,3,0]]`: the adjacent repeated non-depot node `3` survives, because
`groupby(sol, lambda z: z == 0)` groups by the key `z == 0` and keeps the
run `[3,3]` intact — contradicting the function's own docstring warning
that consecutive duplicate nodes other than `0,0` are removed. -/
theorem sol2routes_keeps_adjacent_duplicate :
    sol2routes [0, 3, 3, 0] = [[0, 3, 3, 0]] := by
  decide

/-- C3 counterexample: on the non-square 2×3 table
`[[0,1,2],[3,4,5]]` (2 rows, each of length 3), `produce_nn_list`
returns a perfectly normal result instead of failing: there is no
squareness check anywhere in the function. -/
theorem produce_nn_list_nonsquare_returns_normally :
    ([[0, 1, 2], [3, 4, 5]] : List (List Int)).length = 2
    ∧ ([[0, 1, 2], [3, 4, 5]] : List (List Int)).map List.length = [3, 3]
    ∧ produce_nn_list [[0, 1, 2], [3, 4, 5]]
        = [[(0, 0), (1, 1), (2, 2)], [(0, 3), (1, 4), (2, 5)]] := by
  decide

/-- C3 (amended): `produce_nn_list` performs no squareness validation.
For EVERY table `D` — square or not — it returns a normal result with one
entry per row, and each entry is a permutation of the enumerated row,
sorted ascending by distance. -/
theorem produce_nn_list_no_validation (D : List (List Int)) (i : Nat)
    (h : i < D.length) :
    (produce_nn_list D).length = D.length
    ∧ ∃ hi : i < (produce_nn_list D).length,
        ((produce_nn_list D).get ⟨i, hi⟩).Perm (D.get ⟨i, h⟩).enum
        ∧ List.Pairwise (fun p q : Nat × Int => p.2 ≤ q.2)
            ((produce_nn_list D).get ⟨i, hi⟩) := by
  have hlen : (produce_nn_list D).length = D.length := by
    simp [produce_nn_list]
  refine ⟨hlen, by omega, ?_, ?_⟩
  · rw [show (produce_nn_list D).get ⟨i, by omega⟩
        = List.insertionSort (fun p q => p.2 ≤ q.2) (D.get ⟨i, h⟩).enum from ?_]
    · exact List.perm_insertionSort _ _
    · simp [produce_nn_list, List.get_map]
  · rw [show (produce_nn_list D).get ⟨i, by omega⟩
        = List.insertionSort (fun p q => p.2 ≤ q.2) (D.get ⟨i, h⟩).enum from ?_]
    · exact List.sorted_insertionSort _ _
    · simp [produce_nn_list, List.get_map]

/-- C3 witness: the amended theorem applied at the non-square table
`[[0,1,2],[3,4,5]]`, row 0. -/
theorem produce_nn_list_no_validation_witness :
    (produce_nn_list [[0, 1, 2], [3, 4, 5]]).length
        = ([[0, 1, 2], [3, 4, 5]] : List (List Int)).length
    ∧ ∃ hi : 0 < (produce_nn_list [[0, 1, 2], [3, 4, 5]]).length,
        ((produce_nn_list [[0, 1, 2], [3, 4, 5]]).get ⟨0, hi⟩).Perm
          (([[0, 1, 2], [3, 4, 5]] : List (List Int)).get ⟨0, by decide⟩).enum
        ∧ List.Pairwise (fun p q : Nat × Int => p.2 ≤ q.2)
            ((produce_nn_list [[0, 1, 2], [3, 4, 5]]).get ⟨0, hi⟩) :=
  produce_nn_list_no_validation [[0, 1, 2], [3, 4, 5]] 0 (by decide)

/-- C4: the full contract of `is_better_sol`: an absent candidate
objective or vehicle count loses; against an absent incumbent objective or
vehicle count the candidate wins; with `minimize_K = true` the candidate
wins iff it has strictly fewer vehicles, or equally many and strictly
lower cost; with `minimize_K = false` it wins iff it has strictly lower
cost, the vehicle counts being ignored. -/
theorem is_better_sol_correct :
    (∀ (bf bK sK : Option Int) (mk : Bool),
        is_better_sol bf bK none sK mk = false)
    ∧ (∀ (bf bK sf : Option Int) (mk : Bool),
        is_better_sol bf bK sf none mk = false)
    ∧ (∀ (bK : Option Int) (sf sK : Int) (mk : Bool),
        is_better_sol none bK (some sf) (some sK) mk = true)
    ∧ (∀ (bf : Option Int) (sf sK : Int) (mk : Bool),
        is_better_sol bf none (some sf) (some sK) mk = true)
    ∧ (∀ bf bK sf sK : Int,
        is_better_sol (some bf) (some bK) (some sf) (some sK) true = true
          ↔ sK < bK ∨ (sK = bK ∧ sf < bf))
    ∧ (∀ bf bK sf sK : Int,
        is_better_sol (some bf) (some bK) (some sf) (some sK) false = true
          ↔ sf < bf) := by
  refine ⟨?_, ?_, ?_, ?_, ?_, ?_⟩
  · intro bf bK sK mk; cases sK <;> rfl
  · intro bf bK sf mk; cases sf <;> rfl
  · intro bK sf sK mk; simp [is_better_sol]
  · intro bf sf sK mk; cases bf <;> simp [is_better_sol]
  · intro bf bK sf sK; simp [is_better_sol]
  · intro bf bK sf sK; simp [is_better_sol]

/-- C5 counterexample: starting from an empty `OrderedDictSet`, the legal
operation sequence add 1, add 2, remove 1, add 1 yields iteration order
`[2, 1]`, whereas the still-present elements ordered by FIRST insertion
are `[1, 2]`; and the length is `2`, whereas "distinct elements ever added
minus distinct elements removed" is `2 - 1 = 1`. -/
theorem orderedDictSet_first_insertion_refuted :
    applyOps (OrderedDictSet.ofCollection [])
        [Op.add 1, Op.add 2, Op.remove 1, Op.add 1]
      = some ⟨[2, 1], none⟩
    ∧ firstInsertionOrder [Op.add 1, Op.add 2, Op.remove 1, Op.add 1] = [1, 2]
    ∧ distinctAdded [Op.add 1, Op.add 2, Op.remove 1, Op.add 1]
        - distinctRemoved [Op.add 1, Op.add 2, Op.remove 1, Op.add 1] = 1
    ∧ ([2, 1] : List Nat) ≠ [1, 2]
    ∧ ([2, 1] : List Nat).length ≠ 1 := by
  decide

/-- C9: every route produced by `sol2routes` starts and ends with the
depot `0` — for EVERY input sequence, including ones that are not
depot-bounded — and any input of length at most 2 yields the empty route
list. -/
theorem sol2routes_depot_bounded (sol : List Nat) :
    (∀ r ∈ sol2routes sol, r.head? = some 0 ∧ r.getLast? = some 0)
    ∧ (sol.length ≤ 2 → sol2routes sol = []) := by
  constructor
  · intro r hr
    unfold sol2routes at hr
    split at hr
    · simp at hr
    · simp only [List.mem_filterMap] at hr
      obtain ⟨g, -, hif⟩ := hr
      split at hif
      · exact Option.noConfusion hif
      · obtain rfl := Option.some.inj hif
        refine ⟨rfl, ?_⟩
        rw [show (0 :: (g ++ [0])) = (0 :: g) ++ [0] by simp]
        exact List.getLast?_concat _
  · intro h
    unfold sol2routes
    simp [h]

/-- C9 witness: the non-depot-bounded input `[5,3,7]` yields the single
route `[0,5,3,7,0]`, which starts and ends with `0`; and `[0,3]` (length
2) yields no routes. -/
theorem sol2routes_depot_bounded_witness :
    (([0, 5, 3, 7, 0] : List Nat).head? = some 0
      ∧ ([0, 5, 3, 7, 0] : List Nat).getLast? = some 0)
    ∧ sol2routes [0, 3] = [] :=
  ⟨(sol2routes_depot_bounded [5, 3, 7]).1 [0, 5, 3, 7, 0] (by decide),
   (sol2routes_depot_bounded [0, 3]).2 (by decide)⟩

/-- C10: adding an element that is already present leaves the dict's key
sequence — hence the iteration order and the length — unchanged. -/
theorem add_of_present_preserves_order (s : OrderedDictSet) (e : Nat)
    (h : e ∈ s.ods) :
    (s.add e).ods = s.ods ∧ (s.add e).size = s.size := by
  constructor <;> simp [OrderedDictSet.add, OrderedDictSet.size, dictInsert, h]

/-- C10 witness: re-adding the present element `1` to the set holding
`[1, 2]` changes nothing. -/
theorem add_of_present_preserves_order_witness :
    ((⟨[1, 2], none⟩ : OrderedDictSet).add 1).ods
        = (⟨[1, 2], none⟩ : OrderedDictSet).ods
    ∧ ((⟨[1, 2], none⟩ : OrderedDictSet).add 1).size
        = (⟨[1, 2], none⟩ : OrderedDictSet).size :=
  add_of_present_preserves_order ⟨[1, 2], none⟩ 1 (by decide)

end VeRyPy

namespace VeRyPy

/-- If a list starts with the depot, it is of the form `0 :: t`. -/
lemma head?_zero_elim (sol : List Nat) (h : sol.head? = some 0) :
    ∃ t, sol = 0 :: t := by
  cases sol with
  | nil => simp at h
  | cons a t => exact ⟨t, by rw [Option.some.inj h]⟩

/-- The assembly loop body never loses the leading depot. -/
lemma r2sStep_head (sol r : List Nat) (h : sol.head? = some 0) :
    (r2sStep sol r).head? = some 0 := by
  obtain ⟨t, rfl⟩ := head?_zero_elim sol h
  unfold r2sStep
  dsimp only
  split_ifs <;> simp

/-- Processing an empty (falsy) route is a no-op. -/
lemma r2sStep_nil (sol : List Nat) : r2sStep sol [] = sol := by
  simp [r2sStep]

/-- A non-empty list whose last element defaults to `0` ends in `some 0`. -/
lemma getLastD_zero_getLast? (l : List Nat) (hne : l ≠ [])
    (h : (l.getLastD 0 == 0) = true) : l.getLast? = some 0 := by
  rw [List.getLastD_eq_getLast?] at h
  cases hgl : l.getLast? with
  | none => exact absurd (List.getLast?_eq_none_iff.mp hgl) hne
  | some x =>
    rw [hgl] at h
    simp only [Option.getD_some, beq_iff_eq] at h
    rw [h]

/-- After processing a non-empty route, the running solution ends with the
depot. -/
lemma r2sStep_last_of_ne_nil (sol r : List Nat) (hs : sol ≠ []) (hr : r ≠ []) :
    (r2sStep sol r).getLast? = some 0 := by
  have hx : ∀ m : List Nat, sol ++ m ≠ [] :=
    fun m hc => hs (List.append_eq_nil.mp hc).1
  unfold r2sStep
  rw [if_neg hr]
  dsimp only
  split_ifs with hh hl hl2
  · exact getLastD_zero_getLast? _ (hx _) hl
  · exact List.getLast?_concat _
  · exact getLastD_zero_getLast? _ (hx _) hl2
  · exact List.getLast?_concat _

/-- Invariant of the assembly fold: starting from a non-empty solution
with a leading depot, the result is non-empty, keeps the leading depot,
and ends with the depot as soon as some processed route was non-empty (or
the start already ended with the depot). -/
lemma foldl_r2sStep_spec (rs : List (List Nat)) (sol : List Nat)
    (hne : sol ≠ []) (hhead : sol.head? = some 0) :
    rs.foldl r2sStep sol ≠ []
    ∧ (rs.foldl r2sStep sol).head? = some 0
    ∧ (((∃ r ∈ rs, r ≠ []) ∨ sol.getLast? = some 0) →
        (rs.foldl r2sStep sol).getLast? = some 0) := by
  induction rs generalizing sol with
  | nil =>
    refine ⟨hne, hhead, fun h => ?_⟩
    rcases h with ⟨r, hr, -⟩ | h
    · exact absurd hr (List.not_mem_nil r)
    · exact h
  | cons r rest ih =>
    have hh' := r2sStep_head sol r hhead
    have hne' : r2sStep sol r ≠ [] := by
      intro hc
      rw [hc] at hh'
      simp at hh'
    obtain ⟨ihne, ihhead, ihlast⟩ := ih (r2sStep sol r) hne' hh'
    refine ⟨ihne, ihhead, fun hcase => ihlast ?_⟩
    rcases hcase with ⟨r', hr', hrne⟩ | hlast
    · rcases List.mem_cons.mp hr' with rfl | hmem
      · exact Or.inr (r2sStep_last_of_ne_nil sol r' hne hrne)
      · exact Or.inl ⟨r', hmem, hrne⟩
    · by_cases hre : r = []
      · rw [hre, r2sStep_nil]
        exact Or.inr hlast
      · exact Or.inr (r2sStep_last_of_ne_nil sol r hne hre)

/-- C8: `routes2sol` maps the empty (falsy) route list to the absent value
`none`, never to an empty sequence; for every non-empty route list the
result is a sequence starting with the depot `0`, and it also ends with
`0` whenever at least one non-empty route was supplied. -/
theorem routes2sol_contract :
    routes2sol [] = none
    ∧ ∀ rs : List (List Nat), rs ≠ [] →
        ∃ s, routes2sol rs = some s ∧ s.head? = some 0
          ∧ ((∃ r ∈ rs, r ≠ []) → s.getLast? = some 0) := by
  refine ⟨rfl, fun rs hrs => ⟨rs.foldl r2sStep [0], ?_, ?_, ?_⟩⟩
  · simp [routes2sol, hrs]
  · exact (foldl_r2sStep_spec rs [0] (by simp) rfl).2.1
  · exact fun hex => (foldl_r2sStep_spec rs [0] (by simp) rfl).2.2 (Or.inl hex)

/-- C8 witness: the route list `[[1]]` assembles to a sequence starting
with `0` and (having a non-empty route) ending with `0`. -/
theorem routes2sol_contract_witness :
    ∃ s, routes2sol [[1]] = some s ∧ s.head? = some 0
      ∧ ((∃ r ∈ [[1]], r ≠ ([] : List Nat)) → s.getLast? = some 0) :=
  routes2sol_contract.2 [[1]] (by decide)

end VeRyPy

namespace VeRyPy

/-- Membership after a dict-style insertion. -/
lemma mem_dictInsert (l : List Nat) (a b : Nat) :
    a ∈ dictInsert l b ↔ a ∈ l ∨ a = b := by
  unfold dictInsert
  split_ifs with hb
  · constructor
    · exact Or.inl
    · rintro (h | rfl)
      · exact h
      · exact hb
  · simp [List.mem_append]

/-- Dict-style insertion preserves distinctness of the key sequence. -/
lemma dictInsert_nodup (l : List Nat) (a : Nat) (hl : l.Nodup) :
    (dictInsert l a).Nodup := by
  unfold dictInsert
  split_ifs with ha
  · exact hl
  · exact List.nodup_append.mpr
      ⟨hl, List.nodup_singleton a, by simpa [List.disjoint_singleton] using ha⟩

/-- The abstract ordered-set fold keeps the element sequence duplicate
free. -/
lemma foldl_specStep_nodup (h : List Op) (l : List Nat) (hl : l.Nodup) :
    (h.foldl specStep l).Nodup := by
  induction h generalizing l with
  | nil => exact hl
  | cons op t ih =>
    cases op with
    | add e => exact ih _ (dictInsert_nodup l e hl)
    | remove e => exact ih _ (hl.erase e)

/-- Membership in the abstract ordered set is decided by the last
add/remove of the element in the history. -/
lemma mem_foldl_specStep (h : List Op) (l : List Nat) (hl : l.Nodup)
    (a : Nat) :
    a ∈ h.foldl specStep l ↔ presentFrom (decide (a ∈ l)) h a = true := by
  induction h generalizing l with
  | nil => simp [presentFrom]
  | cons op t ih =>
    cases op with
    | add e =>
      rw [List.foldl_cons]
      simp only [specStep]
      rw [ih (dictInsert l e) (dictInsert_nodup l e hl)]
      show presentFrom _ t a = true ↔ presentFrom _ t a = true
      congr! 2
      by_cases he : e = a
      · subst he
        simp [mem_dictInsert]
      · simp only [if_neg he]
        congr 1
        rw [eq_iff_iff, mem_dictInsert]
        constructor
        · rintro (h | rfl)
          · exact h
          · exact absurd rfl he
        · exact Or.inl
    | remove e =>
      rw [List.foldl_cons]
      simp only [specStep]
      rw [ih (l.erase e) (hl.erase e)]
      show presentFrom _ t a = true ↔ presentFrom _ t a = true
      congr! 2
      by_cases he : e = a
      · subst he
        simp [hl.not_mem_erase]
      · simp only [if_neg he]
        congr 1
        rw [eq_iff_iff]
        exact List.mem_erase_of_ne (fun hc => he hc.symm)

/-- Refinement: a successful run of the implementation from a state whose
key sequence matches the abstract fold of history `h` (with an unbuilt
cache) lands in the abstract fold of the extended history, still with an
unbuilt cache. -/
lemma applyOps_spec (ops : List Op) (s : OrderedDictSet) (h : List Op)
    (hs : s.ods = h.foldl specStep []) (hk : s.keylist = none)
    (s' : OrderedDictSet) (happ : applyOps s ops = some s') :
    s'.ods = (h ++ ops).foldl specStep [] ∧ s'.keylist = none := by
  induction ops generalizing s h with
  | nil =>
    obtain rfl := Option.some.inj happ
    simpa using ⟨hs, hk⟩
  | cons op t ih =>
    cases op with
    | add e =>
      have happ' : applyOps (s.add e) t = some s' := happ
      have hods : (s.add e).ods = (h ++ [Op.add e]).foldl specStep [] := by
        rw [List.foldl_append]
        simp only [List.foldl_cons, List.foldl_nil]
        show dictInsert s.ods e = specStep (h.foldl specStep []) (Op.add e)
        rw [hs]
        rfl
      have hkey : (s.add e).keylist = none := by
        simp [OrderedDictSet.add, hk]
      have := ih (s.add e) (h ++ [Op.add e]) hods hkey happ'
      simpa using this
    | remove e =>
      by_cases he : e ∈ s.ods
      · have happ' : applyOps ⟨s.ods.erase e, none⟩ t = some s' := by
          simpa [applyOps, applyOp, OrderedDictSet.remove, if_pos he]
            using happ
        have hods : (⟨s.ods.erase e, none⟩ : OrderedDictSet).ods
            = (h ++ [Op.remove e]).foldl specStep [] := by
          rw [List.foldl_append]
          simp only [List.foldl_cons, List.foldl_nil]
          show s.ods.erase e = specStep (h.foldl specStep []) (Op.remove e)
          rw [hs]
          rfl
        have := ih ⟨s.ods.erase e, none⟩ (h ++ [Op.remove e]) hods rfl happ'
        simpa using this
      · simp [applyOps, applyOp, OrderedDictSet.remove, if_neg he] at happ

/-- C5 (amended): after any legal sequence of add/remove operations on an
`OrderedDictSet` built from a collection, the iteration order (the dict's
key sequence) equals the still-present elements ordered by MOST RECENT
insertion — `specOrder` of the history, where re-adding a removed element
appends it at the end and re-adding a present element leaves it in place —
it is duplicate free, and its members are exactly the elements whose last
add/remove in the history is an add; hence the length is the number of
distinct elements currently present. -/
theorem orderedDictSet_order_invariant (c : List Nat) (ops : List Op)
    (s : OrderedDictSet)
    (happ : applyOps (OrderedDictSet.ofCollection c) ops = some s) :
    s.ods = specOrder (c.map Op.add ++ ops)
    ∧ s.ods.Nodup
    ∧ ∀ a : Nat, a ∈ s.ods ↔ present (c.map Op.add ++ ops) a = true := by
  have hinit : (OrderedDictSet.ofCollection c).ods
      = (c.map Op.add).foldl specStep [] := by
    rw [List.foldl_map]
    rfl
  obtain ⟨hods, -⟩ := applyOps_spec ops (OrderedDictSet.ofCollection c)
    (c.map Op.add) hinit rfl s happ
  refine ⟨hods, ?_, ?_⟩
  · rw [hods]
    exact foldl_specStep_nodup _ _ List.nodup_nil
  · intro a
    rw [hods]
    simpa [present] using
      mem_foldl_specStep (c.map Op.add ++ ops) [] List.nodup_nil a

/-- C5 witness: the amended invariant applied to the set built from `[5]`
after the operations add 1, remove 5, which succeed and leave the state
`⟨[1], none⟩`. -/
theorem orderedDictSet_order_invariant_witness :
    (⟨[1], none⟩ : OrderedDictSet).ods
        = specOrder (([5] : List Nat).map Op.add ++ [Op.add 1, Op.remove 5])
    ∧ (⟨[1], none⟩ : OrderedDictSet).ods.Nodup
    ∧ ∀ a : Nat, a ∈ (⟨[1], none⟩ : OrderedDictSet).ods
        ↔ present (([5] : List Nat).map Op.add ++ [Op.add 1, Op.remove 5]) a
            = true :=
  orderedDictSet_order_invariant [5] [Op.add 1, Op.remove 5] ⟨[1], none⟩
    (by decide)

end VeRyPy

namespace VeRyPy

/-- The unfolding equation of `groupRuns` on a non-empty list. -/
lemma groupRuns_cons_eq (a : Nat) (rest : List Nat) :
    groupRuns (a :: rest) =
      match groupRuns rest with
      | [] => [[a]]
      | [] :: gs => [a] :: gs
      | (b :: g) :: gs =>
        if zkey a == zkey b then (a :: b :: g) :: gs
        else [a] :: (b :: g) :: gs := rfl

/-- The first group produced by `groupRuns` starts with the head of the
input. -/
lemma groupRuns_head (a : Nat) (l : List Nat) :
    ∃ g gs, groupRuns (a :: l) = (a :: g) :: gs := by
  induction l generalizing a with
  | nil => exact ⟨[], [], rfl⟩
  | cons b t ih =>
    obtain ⟨g, gs, hg⟩ := ih b
    by_cases hk : (zkey a == zkey b) = true
    · refine ⟨b :: g, gs, ?_⟩
      rw [groupRuns_cons_eq, hg]
      dsimp only
      rw [if_pos hk]
    · refine ⟨[], (b :: g) :: gs, ?_⟩
      rw [groupRuns_cons_eq, hg]
      dsimp only
      rw [if_neg hk]

/-- A run of non-depot nodes followed by nothing or by a depot forms one
whole group of `groupRuns`. -/
lemma groupRuns_nonzero_run (seg l : List Nat) (hne : seg ≠ [])
    (hnz : ∀ x ∈ seg, x ≠ 0) (hl : l = [] ∨ l.head? = some 0) :
    groupRuns (seg ++ l) = seg :: groupRuns l := by
  induction seg with
  | nil => exact absurd rfl hne
  | cons x seg' ih =>
    have hx : x ≠ 0 := hnz x (List.mem_cons_self x seg')
    have hxk : zkey x = false := by simp [zkey, hx]
    cases seg' with
    | nil =>
      rcases hl with rfl | hl0
      · rfl
      · obtain ⟨t, rfl⟩ := head?_zero_elim l hl0
        obtain ⟨g, gs, hg⟩ := groupRuns_head 0 t
        show groupRuns (x :: 0 :: t) = [x] :: groupRuns (0 :: t)
        rw [groupRuns_cons_eq, hg]
        dsimp only
        rw [if_neg (by simp [zkey, hx]), ← hg]
    | cons y seg'' =>
      have ih' : groupRuns ((y :: seg'') ++ l) = (y :: seg'') :: groupRuns l :=
        ih (List.cons_ne_nil y seg'')
          (fun z hz => hnz z (List.mem_cons_of_mem x hz))
      have hy : y ≠ 0 := hnz y (by simp)
      rw [List.cons_append] at ih'
      show groupRuns (x :: (y :: (seg'' ++ l))) = _
      rw [groupRuns_cons_eq, ih']
      dsimp only
      rw [if_pos (by simp [zkey, hx, hy])]

/-- A depot followed by nothing or by a non-depot node opens a singleton
`[0]` group of `groupRuns`. -/
lemma groupRuns_zero_cons (l : List Nat)
    (hl : l = [] ∨ ∃ b t, l = b :: t ∧ b ≠ 0) :
    groupRuns (0 :: l) = [0] :: groupRuns l := by
  rcases hl with rfl | ⟨b, t, rfl, hb⟩
  · rfl
  · obtain ⟨g, gs, hg⟩ := groupRuns_head b t
    rw [groupRuns_cons_eq, hg]
    dsimp only
    rw [if_neg (by simp [zkey, hb]), ← hg]

/-- Any list ending with a depot splits at its first depot: a (possibly
empty) run of non-depot nodes, the depot, and a remainder. -/
lemma split_first_zero (l : List Nat) (h : l.getLast? = some 0) :
    ∃ seg t, (∀ x ∈ seg, x ≠ 0) ∧ l = seg ++ 0 :: t := by
  induction l with
  | nil => simp at h
  | cons a l' ih =>
    by_cases ha : a = 0
    · exact ⟨[], l', by simp, by rw [ha]; rfl⟩
    · cases l' with
      | nil =>
        simp only [List.getLast?_singleton, Option.some.injEq] at h
        exact absurd h ha
      | cons b t =>
        rw [List.getLast?_cons_cons] at h
        obtain ⟨seg, t', hseg, heq⟩ := ih h
        refine ⟨a :: seg, t', ?_, by rw [List.cons_append, ← heq]⟩
        intro x hx
        rcases List.mem_cons.mp hx with rfl | hx'
        · exact ha
        · exact hseg x hx'

/-- Canonical form: a depot-led sequence that ends with the depot and has
no two equal adjacent elements is `0` followed by blocks `seg ++ [0]` of
non-empty, depot-free segments. -/
lemma canonical_form_aux :
    ∀ (n : Nat) (rest : List Nat), rest.length ≤ n →
      (0 :: rest).getLast? = some 0 → List.Chain' (· ≠ ·) (0 :: rest) →
      ∃ segs : List (List Nat),
        (∀ seg ∈ segs, seg ≠ [] ∧ ∀ x ∈ seg, x ≠ 0)
        ∧ rest = (segs.map (· ++ [0])).flatten := by
  intro n
  induction n with
  | zero =>
    intro rest hlen _ _
    have : rest = [] := List.length_eq_zero.mp (Nat.le_zero.mp hlen)
    exact ⟨[], by simp, by simp [this]⟩
  | succ n ih =>
    intro rest hlen hlast hchain
    cases rest with
    | nil => exact ⟨[], by simp, by simp⟩
    | cons a t =>
      have ha : a ≠ 0 := fun hc => (List.chain'_cons.mp hchain).1 hc.symm
      have hlast' : (a :: t).getLast? = some 0 := by
        rwa [List.getLast?_cons_cons] at hlast
      obtain ⟨seg, t', hsegnz, heq⟩ := split_first_zero (a :: t) hlast'
      have hsegne : seg ≠ [] := by
        rintro rfl
        rw [List.nil_append] at heq
        exact ha (List.head_eq_of_cons_eq heq)
      have hrw : (0 : Nat) :: a :: t = (0 :: seg) ++ 0 :: t' := by
        rw [heq]
        rfl
      have hch' : List.Chain' (· ≠ ·) (0 :: t') := by
        have hc := hchain
        rw [hrw] at hc
        exact (List.chain'_append.mp hc).2.1
      cases t' with
      | nil =>
        refine ⟨[seg], ?_, ?_⟩
        · intro s hs
          rw [List.mem_singleton] at hs
          subst hs
          exact ⟨hsegne, hsegnz⟩
        · simpa using heq
      | cons b tt =>
        have hlast'' : ((0 : Nat) :: b :: tt).getLast? = some 0 := by
          have h0 := hlast
          rw [hrw] at h0
          rwa [List.getLast?_append_of_ne_nil _ (List.cons_ne_nil _ _)] at h0
        have hlen' : (b :: tt).length ≤ n := by
          have hlc := congrArg List.length heq
          have hseglen : 0 < seg.length := List.length_pos.mpr hsegne
          simp only [List.length_cons, List.length_append] at hlc hlen ⊢
          omega
        obtain ⟨segs', hsegs', hflat'⟩ := ih (b :: tt) hlen' hlast'' hch'
        refine ⟨seg :: segs', ?_, ?_⟩
        · intro s hs
          rcases List.mem_cons.mp hs with rfl | hs'
          · exact ⟨hsegne, hsegnz⟩
          · exact hsegs' s hs'
        · rw [heq, hflat']
          simp [List.append_assoc]

end VeRyPy

namespace VeRyPy

/-- `groupRuns` of an assembled canonical solution: a `[0]` group, then
alternately a segment group and a `[0]` group. -/
lemma groupRuns_assemble (segs : List (List Nat))
    (hsegs : ∀ seg ∈ segs, seg ≠ [] ∧ ∀ x ∈ seg, x ≠ 0) :
    groupRuns (0 :: (segs.map (· ++ [0])).flatten)
      = [0] :: (segs.map (fun seg => [seg, [0]])).flatten := by
  induction segs with
  | nil => rfl
  | cons seg rest ih =>
    obtain ⟨hne, hnz⟩ := hsegs seg (List.mem_cons_self seg rest)
    have ih' := ih (fun s hs => hsegs s (List.mem_cons_of_mem seg hs))
    obtain ⟨x, seg', rfl⟩ : ∃ x s', seg = x :: s' := by
      cases seg with
      | nil => exact absurd rfl hne
      | cons a b => exact ⟨a, b, rfl⟩
    have hflat : (((x :: seg') :: rest).map (· ++ [0])).flatten
        = (x :: seg') ++ 0 :: (rest.map (· ++ [0])).flatten := by
      simp [List.append_assoc]
    rw [hflat]
    rw [groupRuns_zero_cons _
      (Or.inr ⟨x, seg' ++ 0 :: (rest.map (· ++ [0])).flatten,
        by simp, hnz x (by simp)⟩)]
    rw [groupRuns_nonzero_run (x :: seg')
      (0 :: (rest.map (· ++ [0])).flatten) hne hnz (Or.inr rfl)]
    rw [ih']
    simp

/-- Applying the route-wrapping filter of `sol2routes` to the alternating
block list keeps exactly the segments, each wrapped as `0 :: seg ++ [0]`. -/
lemma filterMap_blocks (segs : List (List Nat))
    (hsegs : ∀ seg ∈ segs, seg ≠ [] ∧ ∀ x ∈ seg, x ≠ 0) :
    ((segs.map (fun seg => [seg, [0]])).flatten).filterMap
        (fun r => if zkey (r.headD 0) then none else some (0 :: (r ++ [0])))
      = segs.map (fun seg => 0 :: (seg ++ [0])) := by
  induction segs with
  | nil => rfl
  | cons seg rest ih =>
    obtain ⟨hne, hnz⟩ := hsegs seg (List.mem_cons_self seg rest)
    obtain ⟨x, seg', rfl⟩ : ∃ x s', seg = x :: s' := by
      cases seg with
      | nil => exact absurd rfl hne
      | cons a b => exact ⟨a, b, rfl⟩
    have hx : x ≠ 0 := hnz x (by simp)
    simp only [List.map_cons, List.flatten_cons]
    rw [show ([x :: seg', [0]] : List (List Nat))
        ++ (rest.map (fun seg => [seg, [0]])).flatten
      = (x :: seg') :: [0]
        :: (rest.map (fun seg => [seg, [0]])).flatten from rfl]
    have hcond : zkey ((x :: seg').headD 0) = false := by simp [zkey, hx]
    have hcond0 : zkey (([0] : List Nat).headD 0) = true := rfl
    rw [List.filterMap_cons, List.filterMap_cons, hcond, hcond0]
    simp only [Bool.false_eq_true, if_false, if_true]
    rw [ih (fun s hs => hsegs s (List.mem_cons_of_mem _ hs))]

/-- `sol2routes` of an assembled canonical solution recovers exactly the
wrapped segments. -/
lemma sol2routes_assemble (segs : List (List Nat))
    (hsegs : ∀ seg ∈ segs, seg ≠ [] ∧ ∀ x ∈ seg, x ≠ 0) (hne : segs ≠ []) :
    sol2routes (0 :: (segs.map (· ++ [0])).flatten)
      = segs.map (fun seg => 0 :: (seg ++ [0])) := by
  unfold sol2routes
  rw [if_neg ?hlen]
  case hlen =>
    cases segs with
    | nil => exact absurd rfl hne
    | cons seg rest =>
      obtain ⟨hne', -⟩ := hsegs seg (List.mem_cons_self seg rest)
      have hpos : 0 < seg.length := List.length_pos.mpr hne'
      simp [List.length_append]
      omega
  rw [groupRuns_assemble segs hsegs]
  exact filterMap_blocks segs hsegs

/-- Folding the assembly step over depot-wrapped routes appends the
canonical blocks to the running solution. -/
lemma foldl_r2sStep_routes (segs : List (List Nat)) (sol : List Nat)
    (hne : sol ≠ []) (hlast : sol.getLast? = some 0) :
    (segs.map (fun seg => 0 :: (seg ++ [0]))).foldl r2sStep sol
      = sol ++ (segs.map (· ++ [0])).flatten := by
  induction segs generalizing sol with
  | nil => simp
  | cons seg rest ih =>
    have hstep : r2sStep sol (0 :: (seg ++ [0])) = sol ++ (seg ++ [0]) := by
      have hh : (((0 : Nat) :: (seg ++ [0])).headD 0 == 0) = true := rfl
      have hl : ((sol ++ ((0 : Nat) :: (seg ++ [0])).tail).getLastD 0 == 0)
          = true := by
        show ((sol ++ (seg ++ [0])).getLastD 0 == 0) = true
        rw [← List.append_assoc, List.getLastD_concat]
        rfl
      unfold r2sStep
      rw [if_neg (List.cons_ne_nil _ _)]
      dsimp only
      rw [if_pos hh, if_pos hl]
      rfl
    rw [List.map_cons, List.foldl_cons, hstep]
    rw [ih (sol ++ (seg ++ [0]))
      (fun hc => hne (List.append_eq_nil.mp hc).1)
      (by rw [← List.append_assoc]; exact List.getLast?_concat _)]
    simp [List.append_assoc]

/-- C6: for every depot-bounded solution with no two equal adjacent nodes
and at least one customer, decomposing with `sol2routes` and reassembling
with `routes2sol` reproduces exactly the same sequence. -/
theorem sol2routes_routes2sol_roundtrip (sol : List Nat)
    (hhead : sol.head? = some 0) (hlast : sol.getLast? = some 0)
    (hchain : List.Chain' (· ≠ ·) sol) (hcust : ∃ x ∈ sol, x ≠ 0) :
    routes2sol (sol2routes sol) = some sol := by
  obtain ⟨rest, rfl⟩ := head?_zero_elim sol hhead
  obtain ⟨segs, hsegs, hflat⟩ :=
    canonical_form_aux rest.length rest le_rfl hlast hchain
  subst hflat
  have hne : segs ≠ [] := by
    rintro rfl
    simp at hcust
  rw [sol2routes_assemble segs hsegs hne]
  unfold routes2sol
  rw [if_neg (by simp [hne])]
  rw [foldl_r2sStep_routes segs [0] (by simp) rfl]
  rfl

/-- C6 witness: the round trip at the depot-bounded solution `[0,1,0]`. -/
theorem sol2routes_roundtrip_witness :
    routes2sol (sol2routes [0, 1, 0]) = some [0, 1, 0] :=
  sol2routes_routes2sol_roundtrip [0, 1, 0] rfl rfl
    (by simp [List.chain'_cons]) ⟨1, by simp, by simp⟩

/-- Splitting the pairwise-adjacent sum of `objf` at an interior node. -/
lemma objf_append_cons (l m : List Nat) (x : Nat) (D : Nat → Nat → Int) :
    objf (l ++ x :: m) D = objf (l ++ [x]) D + objf (x :: m) D := by
  induction l with
  | nil =>
    show objf (x :: m) D = objf [x] D + objf (x :: m) D
    have h0 : objf [x] D = 0 := rfl
    rw [h0, zero_add]
  | cons a l' ih =>
    cases l' with
    | nil =>
      show D a x + objf (x :: m) D = objf [a, x] D + objf (x :: m) D
      have h2 : objf [a, x] D = D a x := by
        show D a x + objf [x] D = D a x
        have h0 : objf [x] D = 0 := rfl
        rw [h0, add_zero]
      rw [h2]
    | cons b l'' =>
      have h1 : objf ((a :: b :: l'') ++ x :: m) D
          = D a b + objf ((b :: l'') ++ x :: m) D := rfl
      have h2 : objf ((a :: b :: l'') ++ [x]) D
          = D a b + objf ((b :: l'') ++ [x]) D := rfl
      rw [h1, h2, ih, add_assoc]

/-- `objf` over an assembled canonical solution decomposes into the sum of
the wrapped segments' objectives. -/
lemma objf_assemble (segs : List (List Nat)) (D : Nat → Nat → Int) :
    objf (0 :: (segs.map (· ++ [0])).flatten) D
      = (segs.map (fun seg => objf (0 :: (seg ++ [0])) D)).sum := by
  induction segs with
  | nil => rfl
  | cons seg rest ih =>
    have hsplit : (0 : Nat) :: ((seg :: rest).map (· ++ [0])).flatten
        = (0 :: seg) ++ 0 :: (rest.map (· ++ [0])).flatten := by
      simp [List.append_assoc]
    rw [hsplit, objf_append_cons, ih]
    simp [List.sum_cons, List.cons_append]

/-- C7: for every depot-bounded solution with no two equal adjacent nodes,
the objective of the whole sequence equals the sum of the objectives of
its `sol2routes` decomposition. -/
theorem objf_additive (sol : List Nat) (D : Nat → Nat → Int)
    (hhead : sol.head? = some 0) (hlast : sol.getLast? = some 0)
    (hchain : List.Chain' (· ≠ ·) sol) :
    objf sol D = ((sol2routes sol).map (fun r => objf r D)).sum := by
  obtain ⟨rest, rfl⟩ := head?_zero_elim sol hhead
  obtain ⟨segs, hsegs, hflat⟩ :=
    canonical_form_aux rest.length rest le_rfl hlast hchain
  subst hflat
  by_cases hne : segs = []
  · subst hne
    rfl
  · rw [sol2routes_assemble segs hsegs hne, objf_assemble, List.map_map]
    rfl

/-- C7 witness: additivity at the solution `[0,1,0,2,0]` with the distance
table `D a b = a + b`. -/
theorem objf_additive_witness :
    objf [0, 1, 0, 2, 0] (fun a b => (a : Int) + (b : Int))
      = ((sol2routes [0, 1, 0, 2, 0]).map
          (fun r => objf r (fun a b => (a : Int) + (b : Int)))).sum :=
  objf_additive [0, 1, 0, 2, 0] _ rfl rfl (by simp [List.chain'_cons])

end VeRyPy
